import Mathlib

/-!
Verification development for the chompie source minimizer.

The engine is shallowly embedded: text is `List Char`, the file map and the
hash sets are lists carrying their iteration order (membership gives the set
semantics, and the order models the unspecified iteration order of the Rust
`HashMap` / `HashSet`), the disk is an association list from path to content,
and the command oracle is an explicit function from disk contents to a run
result.  Every definition is translated from the corresponding Rust item in
`src/chompie/src`.
-/

namespace Chompie

/-- Text is modelled as a list of characters. -/
abbrev Str := List Char

/-- Disk contents: association list from path to file content. -/
abbrev Disk := List (Str × Str)

/-- Result of one oracle run (`command_runner.rs`, `RunResult`). -/
structure RunResult where
  stdout : Str
  stderr : Str
  exit_code : Int
deriving DecidableEq

/-- `RunResult::is_identical` (`command_runner.rs`). -/
def is_identical (a b : RunResult) : Bool :=
  decide (a.stdout = b.stdout) && decide (a.stderr = b.stderr)
    && decide (a.exit_code = b.exit_code)

/-- The command oracle: a deterministic function of the on-disk contents,
modelling one run of the user's shell command. -/
abbrev Oracle := Disk → RunResult

/-- Split a character list at every `'\n'`; always returns one more segment
than there are newlines (the Rust `str::split('\n')` behaviour). -/
def splitNl : Str → List Str
  | [] => [[]]
  | x :: xs =>
    if x = '\n' then [] :: splitNl xs
    else
      match splitNl xs with
      | [] => [[x]]
      | s :: rest => (x :: s) :: rest

/-- Strip one trailing `'\r'` if present (the CRLF handling inside Rust's
`str::lines`). -/
def stripCr (s : Str) : Str :=
  if s.getLast? = some '\r' then s.dropLast else s

/-- The semantics of Rust's `str::lines`, used by `FileState::new`
(`file_manager.rs`): segments are separated by `'\n'`; every `'\n'`-terminated
segment has one trailing `'\r'` stripped; a trailing empty segment after a
final `'\n'` (and the single empty segment of the empty string) is dropped;
a final unterminated segment is kept verbatim. -/
def rustLines (content : Str) : List Str :=
  let parts := splitNl content
  (parts.dropLast.map stripCr) ++
    (match parts.getLast? with
     | some [] => []
     | some l => [l]
     | none => [])

/-- Per-file record (`file_manager.rs`, `FileState`).  `blanked_lines` models
the Rust `HashSet<usize>` as the list of its elements in iteration order. -/
structure FileState where
  path : Str
  original_lines : List Str
  blanked_lines : List Nat
deriving DecidableEq

/-- `FileState::new` (`file_manager.rs`): split the content with
`content.lines()` and start with an empty blanked set. -/
def FileState.new (path : Str) (content : Str) : FileState :=
  ⟨path, rustLines content, []⟩

/-- Insertion into the `HashSet` model: no-op when the element is present;
the (unspecified) position of a new element is modelled as the tail. -/
def insertSet (s : List Nat) (x : Nat) : List Nat :=
  if x ∈ s then s else s ++ [x]

/-- `FileState::blank_lines`: insert every in-range index, silently ignoring
indices `≥ original_lines.len()`. -/
def FileState.blank_lines (fs : FileState) (ls : List Nat) : FileState :=
  { fs with
    blanked_lines :=
      ls.foldl
        (fun b l => if l < fs.original_lines.length then insertSet b l else b)
        fs.blanked_lines }

/-- `FileState::unblank_lines`: remove every listed index (absent indices are
ignored). -/
def FileState.unblank_lines (fs : FileState) (ls : List Nat) : FileState :=
  { fs with blanked_lines := fs.blanked_lines.filter (fun x => decide (x ∉ ls)) }

/-- `FileState::current_content`: original lines with blanked indices replaced
by the empty line, joined by `'\n'` (no trailing newline). -/
def FileState.current_content (fs : FileState) : Str :=
  List.intercalate ['\n']
    (fs.original_lines.enum.map (fun e => if e.1 ∈ fs.blanked_lines then [] else e.2))

/-- `FileState::total_lines`. -/
def FileState.total_lines (fs : FileState) : Nat :=
  fs.original_lines.length

/-- `FileState::non_blank_lines`: `original_lines.len() - blanked_lines.len()`. -/
def FileState.non_blank_lines (fs : FileState) : Nat :=
  fs.original_lines.length - fs.blanked_lines.length

/-- `FileState::non_blank_line_indices`: the indices `< total_lines` that are
not in the blanked set, in increasing order. -/
def FileState.non_blank_line_indices (fs : FileState) : List Nat :=
  (List.range fs.original_lines.length).filter (fun i => decide (i ∉ fs.blanked_lines))

/-- Sum of `non_blank_lines` over a file list (`FileManager::non_blank_lines`). -/
def totalNonBlank (files : List FileState) : Nat :=
  (files.map FileState.non_blank_lines).sum

/-- Decimal representation of a natural number, as characters. -/
def natRepr (n : Nat) : Str :=
  (toString n).data

/-- Rust `{:?}` formatting of a `Vec<usize>`: `[a, b, c]`. -/
def fmtNatList (l : List Nat) : Str :=
  ['['] ++ List.intercalate [',', ' '] (l.map natRepr) ++ [']']

/-- The per-file fragment of the state key (`Chomper::get_state_key`,
`chomper.rs`): `format!("{:?}:{:?}", path, blanked)` where `blanked` is the
blanked set collected in iteration order. -/
def fileKey (fs : FileState) : Str :=
  ['"'] ++ fs.path ++ ['"', ':'] ++ fmtNatList fs.blanked_lines

/-- `Chomper::get_state_key`: the per-file fragments, sorted as strings and
joined by `'|'`. -/
def get_state_key (files : List FileState) : Str :=
  List.intercalate ['|']
    (List.insertionSort (fun a b : Str => a ≤ b) (files.map fileKey))

/-- Look a path up on the modelled disk. -/
def diskGet (d : Disk) (p : Str) : Option Str :=
  (d.find? (fun e => decide (e.1 = p))).map (fun e => e.2)

/-- Write one file on the modelled disk, replacing any previous content: the
new pair shadows (and erases) any previous entry for the same path. -/
def upsert (d : Disk) (p v : Str) : Disk :=
  (p, v) :: d.filter (fun e => decide (e.1 ≠ p))

/-- `FileManager::write_all`: write every managed file's current rendering. -/
def writeAllDisk (files : List FileState) (d : Disk) : Disk :=
  files.foldl (fun acc fs => upsert acc fs.path fs.current_content) d

/-- Update every file state whose path matches (the `HashMap` holds at most
one, so this models `FileManager::get_file_mut` followed by the mutation). -/
def mapFile (files : List FileState) (p : Str) (f : FileState → FileState) :
    List FileState :=
  files.map (fun fs => if fs.path = p then f fs else fs)

/-- A candidate chomp (`strategy.rs`, `ChompRange`). -/
structure ChompRange where
  file : Str
  start_line : Nat
  end_line : Nat
deriving DecidableEq

/-- Engine state (`chomper.rs`, `Chomper`), with the modelled disk attached;
the command runner is passed separately as the `Oracle` function. -/
structure Chomper where
  files : List FileState
  baseline_result : Option RunResult
  tested_states : List Str
  disk : Disk
deriving DecidableEq

/-- `anyhow::Result<bool>` of `try_blank_range`. -/
inductive CRes where
  | ok (b : Bool)
  | err (msg : Str)
deriving DecidableEq

/-- Insertion into the tested-states `HashSet<String>` model. -/
def insertKey (t : List Str) (k : Str) : List Str :=
  if k ∈ t then t else t ++ [k]

/-- Outcome of one `try_blank_range` call: the returned `Result<bool>`, the
new engine state, the state key of the file set at each oracle invocation the
call performed, and the number of `write_all` calls it performed. -/
structure StepOut where
  res : CRes
  c : Chomper
  oracleKeys : List Str
  writes : Nat
deriving DecidableEq

/-- The index list `(range.start_line..range.end_line).collect()` of
`try_blank_range`. -/
def linesToBlank (r : ChompRange) : List Nat :=
  List.range' r.start_line (r.end_line - r.start_line)

/-- The file set after the blanking step of `try_blank_range`. -/
def blankedFiles (c : Chomper) (r : ChompRange) : List FileState :=
  mapFile c.files r.file (fun fs => fs.blank_lines (linesToBlank r))

/-- The file set after the revert step of a failed `try_blank_range`. -/
def revertedFiles (c : Chomper) (r : ChompRange) : List FileState :=
  mapFile (blankedFiles c r) r.file (fun fs => fs.unblank_lines (linesToBlank r))

/-- The disk contents under which the attempt's oracle run happens. -/
def attemptDisk (c : Chomper) (r : ChompRange) : Disk :=
  writeAllDisk (blankedFiles c r) c.disk

/-- The baseline comparison of `try_blank_range`: `false` when no baseline
has been established. -/
def attemptMatches (oracle : Oracle) (c : Chomper) (r : ChompRange) : Bool :=
  match c.baseline_result with
  | some b => is_identical (oracle (attemptDisk c r)) b
  | none => false

/-- `Chomper::try_blank_range` (`chomper.rs`): memo check on the current
(pre-blank) key, blank the half-open range, persist, run the oracle, record
the post-blank key in the memo, compare with the baseline (`false` when no
baseline is set), and revert plus re-persist on mismatch. -/
def try_blank_range (oracle : Oracle) (c : Chomper) (r : ChompRange) : StepOut :=
  if get_state_key c.files ∈ c.tested_states then
    ⟨.ok false, c, [], 0⟩
  else if c.files.any (fun fs => decide (fs.path = r.file)) then
    if attemptMatches oracle c r then
      ⟨.ok true,
        ⟨blankedFiles c r, c.baseline_result,
          insertKey c.tested_states (get_state_key (blankedFiles c r)),
          attemptDisk c r⟩,
        [get_state_key (blankedFiles c r)], 1⟩
    else
      ⟨.ok false,
        ⟨revertedFiles c r, c.baseline_result,
          insertKey c.tested_states (get_state_key (blankedFiles c r)),
          writeAllDisk (revertedFiles c r) (attemptDisk c r)⟩,
        [get_state_key (blankedFiles c r)], 2⟩
  else
    ⟨.err (("File not found: ".data) ++ ['"'] ++ r.file ++ ['"']), c, [], 0⟩

/-- Accumulated outcome of running a list of ranges (`execute_strategy`'s
loop body): final state, success count, oracle-invocation keys, writes. -/
structure ExecOut where
  c : Chomper
  successes : Nat
  oracleKeys : List Str
  writes : Nat
deriving DecidableEq

/-- The iteration of `Chomper::execute_strategy` over an already generated
range list: `Ok(true)` counts as a success, `Ok(false)` and errors do not. -/
def execRanges (oracle : Oracle) (c : Chomper) : List ChompRange → ExecOut
  | [] => ⟨c, 0, [], 0⟩
  | r :: rs =>
    let out := try_blank_range oracle c r
    let rest := execRanges oracle out.c rs
    ⟨rest.c,
     (match out.res with | .ok true => 1 | _ => 0) + rest.successes,
     out.oracleKeys ++ rest.oracleKeys,
     out.writes + rest.writes⟩

/-- The 32768-bounded draw of the strategies' linear congruential generator
(`random_lines.rs` / `random_ranges.rs`): new 64-bit state and the draw. -/
def lcgNext (s : Nat) : Nat × Nat :=
  let s1 := (s * 1103515245 + 12345) % (2 ^ 64)
  (s1, (s1 / 65536) % 32768)

/-- The chunk-emitting inner `while` of `BisectionStrategy::generate_ranges`
(`bisection.rs`): consecutive chunks of `w` non-blank indices starting at
`0, w, 2w, …` while below `count`, each emitted as the range from its first
original index to its last original index + 1 (written in the closed form of
that loop: one chunk per `k < ⌈count/w⌉`). -/
def chunkRanges (p : Str) (nb : List Nat) (count w : Nat) : List ChompRange :=
  (List.range ((count + w - 1) / w)).map (fun k =>
    let start_idx := k * w
    let end_idx := min (start_idx + w) count
    ⟨p, nb.getD start_idx 0, nb.getD (end_idx - 1) 0 + 1⟩)

/-- The outer `while range_size > 0` of bisection: halving chunk widths.  The
`fuel` argument only bounds the iteration count so the recursion is
structural; every caller passes fuel at least the iteration count. -/
def bisectLoop (p : Str) (nb : List Nat) (count : Nat) :
    Nat → Nat → List ChompRange
  | _, 0 => []
  | 0, _ + 1 => []
  | fuel + 1, w + 1 =>
    chunkRanges p nb count (w + 1) ++ bisectLoop p nb count fuel ((w + 1) / 2)

/-- The per-file body of `BisectionStrategy::generate_ranges`: nothing for a
file with no non-blank line, else chunks of widths `count/2, count/4, …`. -/
def perFileBisect (fs : FileState) : List ChompRange :=
  let nb := fs.non_blank_line_indices
  if nb.isEmpty then []
  else bisectLoop fs.path nb nb.length nb.length (nb.length / 2)

/-- `BisectionStrategy::generate_ranges` over the file list in iteration
order. -/
def bisectionRanges (files : List FileState) : List ChompRange :=
  files.foldl (fun acc fs => acc ++ perFileBisect fs) []

/-- The per-file body of `SlidingWindowStrategy::generate_ranges`
(`sliding_window.rs`): all consecutive windows of `w` non-blank indices, or
one range covering everything when fewer than `w` non-blank lines remain. -/
def perFileSliding (w : Nat) (fs : FileState) : List ChompRange :=
  let nb := fs.non_blank_line_indices
  if nb.isEmpty then []
  else if nb.length < w then
    [⟨fs.path, nb.getD 0 0, nb.getD (nb.length - 1) 0 + 1⟩]
  else
    (List.range (nb.length - w + 1)).map
      (fun s => ⟨fs.path, nb.getD s 0, nb.getD (s + w - 1) 0 + 1⟩)

/-- `SlidingWindowStrategy::generate_ranges` over the file list. -/
def slidingRanges (w : Nat) (files : List FileState) : List ChompRange :=
  files.foldl (fun acc fs => acc ++ perFileSliding w fs) []

/-- The attempt loop of `RandomLinesStrategy::generate_ranges`
(`random_lines.rs`): draw a file index, then a non-blank line of that file,
skipping already-tried (file, line) pairs. -/
def randomLinesLoop (files : List FileState) :
    Nat → Nat → List (Str × Nat) → List ChompRange
  | 0, _, _ => []
  | n + 1, rng, tried =>
    let d1 := lcgNext rng
    let fileIndex := d1.2 % files.length
    match files.get? fileIndex with
    | some fs =>
      let nb := fs.non_blank_line_indices
      if nb.isEmpty then randomLinesLoop files n d1.1 tried
      else
        let d2 := lcgNext d1.1
        let idx := d2.2 % nb.length
        let line := nb.getD idx 0
        if (fs.path, line) ∈ tried then randomLinesLoop files n d2.1 tried
        else
          ⟨fs.path, line, line + 1⟩ ::
            randomLinesLoop files n d2.1 (tried ++ [(fs.path, line)])
    | none => randomLinesLoop files n d1.1 tried

/-- `RandomLinesStrategy::generate_ranges`: nothing when no non-blank line
exists, else `min(max_attempts, total_non_blank)` attempts from the seed. -/
def randomLinesRanges (max_attempts seed : Nat) (files : List FileState) :
    List ChompRange :=
  let total := totalNonBlank files
  if total = 0 then []
  else randomLinesLoop files (min max_attempts total) seed []

/-- The attempt loop of `RandomRangesStrategy::generate_ranges`
(`random_ranges.rs`): draw a file, a start position in its non-blank list and
a size in `[1, max(count/4, 1)]`, skipping files with fewer than two non-blank
lines. -/
def randomRangesLoop (files : List FileState) :
    Nat → Nat → List ChompRange
  | 0, _ => []
  | n + 1, rng =>
    let d1 := lcgNext rng
    let fileIndex := d1.2 % files.length
    match files.get? fileIndex with
    | some fs =>
      let nb := fs.non_blank_line_indices
      if nb.length < 2 then randomRangesLoop files n d1.1
      else
        let count := nb.length
        let d2 := lcgNext d1.1
        let start_idx := d2.2 % count
        let d3 := lcgNext d2.1
        let max_size := max (count / 4) 1
        let size := d3.2 % max_size + 1
        let end_idx := min (start_idx + size) count
        if start_idx < end_idx then
          ⟨fs.path, nb.getD start_idx 0, nb.getD (end_idx - 1) 0 + 1⟩ ::
            randomRangesLoop files n d3.1
        else randomRangesLoop files n d3.1
    | none => randomRangesLoop files n d1.1

/-- `RandomRangesStrategy::generate_ranges`. -/
def randomRangesRanges (max_attempts seed : Nat) (files : List FileState) :
    List ChompRange :=
  if files.isEmpty then [] else randomRangesLoop files max_attempts seed

/-- The strategy values `main.rs` can construct (the parameters captured by
each struct; the default seeds are 12345 and 54321). -/
inductive Strategy where
  | bisection
  | random_lines (max_attempts seed : Nat)
  | random_ranges (max_attempts seed : Nat)
  | sliding_window (window_size : Nat)
deriving DecidableEq

/-- `Strategy::generate_ranges` dispatch. -/
def generateRanges : Strategy → List FileState → List ChompRange
  | .bisection, files => bisectionRanges files
  | .random_lines m s, files => randomLinesRanges m s files
  | .random_ranges m s, files => randomRangesRanges m s files
  | .sliding_window w, files => slidingRanges w files

/-- `Chomper::execute_strategy`: generate from the current file set, then run
every range in order. -/
def execute_strategy (oracle : Oracle) (c : Chomper) (s : Strategy) : ExecOut :=
  execRanges oracle c (generateRanges s c.files)

/-- One round of the meta-driver in `run_chomp` (`main.rs`): every configured
strategy in order, summing the successes. -/
def runRound (oracle : Oracle) (c : Chomper) : List Strategy → Chomper × Nat
  | [] => (c, 0)
  | s :: ss =>
    let out := execute_strategy oracle c s
    let rest := runRound oracle out.c ss
    (rest.1, out.successes + rest.2)

/-- The meta-driver round loop of `run_chomp`: repeat rounds until one makes
no progress; returns the final state and the number of rounds executed, or
`none` if the fuel is insufficient (the Rust loop is unbounded). -/
def metaDrive (oracle : Oracle) (strats : List Strategy) :
    Nat → Chomper → Option (Chomper × Nat)
  | 0, _ => none
  | fuel + 1, c =>
    let step := runRound oracle c strats
    if step.2 = 0 then some (step.1, 1)
    else
      match metaDrive oracle strats fuel step.1 with
      | some r => some (r.1, r.2 + 1)
      | none => none

/-! ### Concrete fixtures shared by several witnesses and counterexamples -/

/-- Scenario A's managed file (`a.txt` holding lines `X`, `Y`, `Z`). -/
def scenarioFile : FileState := FileState.new "a.txt".data "X\nY\nZ".data

/-- Scenario A's baseline: `echo k` produces `k\n`, empty stderr, exit 0. -/
def okResult : RunResult := ⟨"k\n".data, [], 0⟩

/-- The oracle of a command whose output never depends on the files. -/
def constOracle : Oracle := fun _ => okResult

/-- Scenario A's engine state right after the baseline is established. -/
def scenarioChomper : Chomper :=
  ⟨[scenarioFile], some okResult, [], [("a.txt".data, "X\nY\nZ".data)]⟩

/-- A run result different from `okResult` in exit code and stdout. -/
def failResult : RunResult := ⟨[], [], 1⟩

/-- An oracle that never matches `okResult`. -/
def failOracle : Oracle := fun _ => failResult

/-! ### Memo behaviour of `try_blank_range` -/

lemma mem_insertKey_self (t : List Str) (k : Str) : k ∈ insertKey t k := by
  unfold insertKey
  split
  · assumption
  · simp

lemma mem_insertKey_of_mem {t : List Str} {x : Str} (k : Str) (h : x ∈ t) :
    x ∈ insertKey t k := by
  unfold insertKey
  split
  · exact h
  · simp [h]

/-- Memo short-circuit: from a state whose key is already tested, the call
returns `Ok(false)` with no mutation, no disk write and no oracle run. -/
lemma try_blank_range_of_tested {c : Chomper} (oracle : Oracle) (r : ChompRange)
    (h : get_state_key c.files ∈ c.tested_states) :
    try_blank_range oracle c r = ⟨.ok false, c, [], 0⟩ := by
  unfold try_blank_range
  simp [h]

/-- After a successful call, the key of the new current state is in the new
memo: the success kept the blanked state whose key was just inserted. -/
lemma locked_of_success {oracle : Oracle} {c : Chomper} {r : ChompRange}
    (h : (try_blank_range oracle c r).res = CRes.ok true) :
    get_state_key (try_blank_range oracle c r).c.files
      ∈ (try_blank_range oracle c r).c.tested_states := by
  by_cases h1 : get_state_key c.files ∈ c.tested_states
  · simp [try_blank_range, h1] at h
  · by_cases h2 : (c.files.any (fun fs => decide (fs.path = r.file))) = true
    · by_cases h3 : attemptMatches oracle c r = true
      · simp [try_blank_range, h1, h2, h3, mem_insertKey_self]
      · simp [try_blank_range, h1, h2, h3] at h
    · simp [try_blank_range, h1, h2] at h

/-- Memo short-circuit extended over a whole list of ranges. -/
lemma execRanges_of_tested {oracle : Oracle} {c : Chomper}
    (h : get_state_key c.files ∈ c.tested_states) :
    ∀ rs, execRanges oracle c rs = ⟨c, 0, [], 0⟩
  | [] => rfl
  | r :: rs => by
    simp [execRanges, try_blank_range_of_tested oracle r h,
      execRanges_of_tested h rs]

/-- The tested-states memo only grows across one call. -/
lemma tested_mono_step {oracle : Oracle} {c : Chomper} {r : ChompRange}
    {x : Str} (h : x ∈ c.tested_states) :
    x ∈ (try_blank_range oracle c r).c.tested_states := by
  by_cases h1 : get_state_key c.files ∈ c.tested_states
  · simpa [try_blank_range, h1] using h
  · by_cases h2 : (c.files.any (fun fs => decide (fs.path = r.file))) = true
    · by_cases h3 : attemptMatches oracle c r = true
      · simpa [try_blank_range, h1, h2, h3] using mem_insertKey_of_mem _ h
      · simpa [try_blank_range, h1, h2, h3] using mem_insertKey_of_mem _ h
    · simpa [try_blank_range, h1, h2] using h

/-- The tested-states memo only grows across a list of calls. -/
lemma tested_mono_exec {oracle : Oracle} :
    ∀ (rs : List ChompRange) {c : Chomper} {x : Str}, x ∈ c.tested_states →
      x ∈ (execRanges oracle c rs).c.tested_states
  | [], _, _, h => h
  | r :: rs, c, x, h => by
    simpa [execRanges] using
      tested_mono_exec rs (tested_mono_step (r := r) h)

/-- Whenever a call invokes the oracle, the state key it invoked it under is
in the memo when the call returns. -/
lemma oracleKey_tested_step {oracle : Oracle} {c : Chomper} {r : ChompRange}
    {k : Str} (h : k ∈ (try_blank_range oracle c r).oracleKeys) :
    k ∈ (try_blank_range oracle c r).c.tested_states := by
  by_cases h1 : get_state_key c.files ∈ c.tested_states
  · simp [try_blank_range, h1] at h
  · by_cases h2 : (c.files.any (fun fs => decide (fs.path = r.file))) = true
    · by_cases h3 : attemptMatches oracle c r = true
      · simp only [try_blank_range, h1, h2, h3, if_false, if_true,
          ite_false, ite_true] at h ⊢
        simp at h
        subst h
        exact mem_insertKey_self _ _
      · simp only [try_blank_range, h1, h2, h3] at h ⊢
        simp at h ⊢
        subst h
        exact mem_insertKey_self _ _
    · simp [try_blank_range, h1, h2] at h

/-- Over a whole run of calls, every oracle-invocation key is memoized by the
end of the run. -/
lemma oracleKeys_tested {oracle : Oracle} :
    ∀ (rs : List ChompRange) (c : Chomper) {k : Str},
      k ∈ (execRanges oracle c rs).oracleKeys →
      k ∈ (execRanges oracle c rs).c.tested_states
  | [], _, _, h => by simp [execRanges] at h
  | r :: rs, c, k, h => by
    simp only [execRanges, List.mem_append] at h
    rcases h with h | h
    · exact tested_mono_exec rs (oracleKey_tested_step h)
    · exact oracleKeys_tested rs _ h

/-- C2: post-success lockout.  Once a `try_blank_range` call has returned
`true`, every subsequent call on the resulting engine (mutated only through
`try_blank_range`) returns `Ok(false)` immediately: the state, the memo and
the disk are untouched, no write happens and the oracle is never invoked,
because the pre-blank key of the current state is already in the memo. -/
theorem C2_post_success_lockout (oracle : Oracle) (c : Chomper) (r : ChompRange)
    (h : (try_blank_range oracle c r).res = CRes.ok true) :
    (∀ r2 : ChompRange,
        try_blank_range oracle (try_blank_range oracle c r).c r2
          = ⟨.ok false, (try_blank_range oracle c r).c, [], 0⟩)
    ∧ (∀ rs : List ChompRange,
        execRanges oracle (try_blank_range oracle c r).c rs
          = ⟨(try_blank_range oracle c r).c, 0, [], 0⟩) :=
  ⟨fun r2 => try_blank_range_of_tested oracle r2 (locked_of_success h),
   fun rs => execRanges_of_tested (locked_of_success h) rs⟩

/-- C2 witness: in Scenario A's state, blanking line 0 succeeds, and the
subsequent single call and two-call run both leave everything unchanged. -/
theorem C2_post_success_lockout_witness :
    (try_blank_range constOracle scenarioChomper ⟨"a.txt".data, 0, 1⟩).res
        = CRes.ok true
    ∧ try_blank_range constOracle
          (try_blank_range constOracle scenarioChomper ⟨"a.txt".data, 0, 1⟩).c
          ⟨"a.txt".data, 1, 2⟩
        = ⟨.ok false,
            (try_blank_range constOracle scenarioChomper ⟨"a.txt".data, 0, 1⟩).c,
            [], 0⟩
    ∧ execRanges constOracle
          (try_blank_range constOracle scenarioChomper ⟨"a.txt".data, 0, 1⟩).c
          [⟨"a.txt".data, 1, 2⟩, ⟨"a.txt".data, 2, 3⟩]
        = ⟨(try_blank_range constOracle scenarioChomper ⟨"a.txt".data, 0, 1⟩).c,
            0, [], 0⟩ :=
  ⟨by decide,
   (C2_post_success_lockout constOracle scenarioChomper ⟨"a.txt".data, 0, 1⟩
      (by decide)).1 _,
   (C2_post_success_lockout constOracle scenarioChomper ⟨"a.txt".data, 0, 1⟩
      (by decide)).2 _⟩

/-- C3 counterexample: with the two-line file `a.txt`, a never-matching
oracle and the real round flow (bisection followed by sliding-window 1), the
engine invokes the oracle twice under the key `"a.txt":[0]` and twice under
`"a.txt":[1]` — the memo check uses the pre-blank key, so it does not prevent
a second invocation under an already-tested post-blank key. -/
theorem C3_counterexample :
    ((execute_strategy failOracle
        ⟨[⟨"a.txt".data, ["X".data, "Y".data], []⟩], some okResult, [],
          [("a.txt".data, "X\nY".data)]⟩ .bisection).oracleKeys ++
      (execute_strategy failOracle
        (execute_strategy failOracle
          ⟨[⟨"a.txt".data, ["X".data, "Y".data], []⟩], some okResult, [],
            [("a.txt".data, "X\nY".data)]⟩ .bisection).c
        (.sliding_window 1)).oracleKeys)
      = ["\"a.txt\":[0]".data, "\"a.txt\":[1]".data,
         "\"a.txt\":[0]".data, "\"a.txt\":[1]".data]
    ∧ ¬ (["\"a.txt\":[0]".data, "\"a.txt\":[1]".data,
          "\"a.txt\":[0]".data, "\"a.txt\":[1]".data] : List Str).Nodup := by
  constructor
  · decide
  · decide

/-- C3 amended: what the memo does guarantee.  Once a key is in the memo, a
call whose current (pre-blank) state has that key performs no oracle run at
all; and the key of every oracle invocation is in the memo when the run ends.
The claim's stronger reading — at most one invocation ever happens while the
file-state's key equals `k` — fails because the entry check uses the
pre-blank key, not the post-blank key of the attempt. -/
theorem C3_memo_guard :
    (∀ (oracle : Oracle) (c : Chomper) (r : ChompRange),
        get_state_key c.files ∈ c.tested_states →
        try_blank_range oracle c r = ⟨CRes.ok false, c, [], 0⟩)
    ∧ (∀ (oracle : Oracle) (rs : List ChompRange) (c : Chomper) (k : Str),
        k ∈ (execRanges oracle c rs).oracleKeys →
        k ∈ (execRanges oracle c rs).c.tested_states) :=
  ⟨fun oracle _ r h => try_blank_range_of_tested oracle r h,
   fun _ rs c _ h => oracleKeys_tested rs c h⟩

/-- C3 witness: a state with its own key memoized short-circuits, and in the
Scenario A run the recorded invocation key is memoized at the end. -/
theorem C3_memo_guard_witness :
    try_blank_range constOracle
        ⟨[scenarioFile], some okResult, ["\"a.txt\":[]".data],
          [("a.txt".data, "X\nY\nZ".data)]⟩ ⟨"a.txt".data, 0, 1⟩
      = ⟨CRes.ok false,
          ⟨[scenarioFile], some okResult, ["\"a.txt\":[]".data],
            [("a.txt".data, "X\nY\nZ".data)]⟩, [], 0⟩
    ∧ ("\"a.txt\":[0]".data
        ∈ (execRanges constOracle scenarioChomper
            [⟨"a.txt".data, 0, 1⟩]).c.tested_states) :=
  ⟨C3_memo_guard.1 constOracle _ ⟨"a.txt".data, 0, 1⟩ (by decide),
   C3_memo_guard.2 constOracle [⟨"a.txt".data, 0, 1⟩] scenarioChomper
     ("\"a.txt\":[0]".data) (by decide)⟩

/-- C1 (what the code actually does on Scenario A): with `a.txt` holding
lines X, Y, Z, the constant oracle of `echo k`, and the bisection-only
meta-driver, the run terminates after 2 rounds having blanked only line 0.
The final render is `"\nY\nZ"` with 2 non-blank lines — not `"\n\n"` with 0
as the scenario expects — because after the first successful chomp the
current state's key is already in the memo, so every later attempt is
short-circuited. -/
theorem C1_scenarioA_code_behavior :
    (metaDrive constOracle [.bisection] 10 scenarioChomper).map
        (fun st => (totalNonBlank st.1.files,
          st.1.files.map FileState.current_content, st.2))
      = some (2, ["\nY\nZ".data], 2)
    ∧ ¬ ((metaDrive constOracle [.bisection] 10 scenarioChomper).map
          (fun st => (totalNonBlank st.1.files,
            st.1.files.map FileState.current_content))
        = some (0, ["\n\n".data])) := by
  exact ⟨by decide, by decide⟩

/-- A managed chomper with a single one-line file, used as counterexample
input. -/
def oneLineChomper : Chomper :=
  ⟨[⟨"a.txt".data, ["X".data], []⟩], some okResult, [],
    [("a.txt".data, "X".data)]⟩

/-- C5 counterexample: the out-of-range attempt `[5,6)` on a 1-line file,
with an oracle matching the baseline, returns `true` yet blanks nothing —
the total non-blank count does not decrease. -/
theorem C5_counterexample :
    (try_blank_range constOracle oneLineChomper ⟨"a.txt".data, 5, 6⟩).res
        = CRes.ok true
    ∧ totalNonBlank
          (try_blank_range constOracle oneLineChomper ⟨"a.txt".data, 5, 6⟩).c.files
        = totalNonBlank oneLineChomper.files := by
  exact ⟨by decide, by decide⟩

/-- C6 counterexample: two logically identical configurations — the same
path and the same blanked set `{0, 1}`, differing only in the iteration
order of the blanked `HashSet` — produce different state keys, because
`get_state_key` sorts the per-file strings but not the blanked indices. -/
theorem C6_counterexample :
    ([0, 1] : List Nat).Perm [1, 0]
    ∧ get_state_key [⟨"a.txt".data, ["X".data, "Y".data], [0, 1]⟩]
        ≠ get_state_key [⟨"a.txt".data, ["X".data, "Y".data], [1, 0]⟩] := by
  exact ⟨by decide, by decide⟩

/-- A chomper whose baseline has not been established. -/
def noBaselineChomper : Chomper :=
  ⟨[⟨"a.txt".data, ["X".data], []⟩], none, [], [("a.txt".data, "X".data)]⟩

/-- C7 counterexample: with no baseline established, `try_blank_range` does
not fail: it blanks, persists, invokes the oracle once, persists the revert
(two writes in total), marks the attempted state tested, and returns the
ordinary `Ok(false)`. -/
theorem C7_counterexample :
    (try_blank_range constOracle noBaselineChomper ⟨"a.txt".data, 0, 1⟩).res
        = CRes.ok false
    ∧ (try_blank_range constOracle noBaselineChomper
          ⟨"a.txt".data, 0, 1⟩).oracleKeys.length = 1
    ∧ (try_blank_range constOracle noBaselineChomper
          ⟨"a.txt".data, 0, 1⟩).writes = 2
    ∧ (try_blank_range constOracle noBaselineChomper
          ⟨"a.txt".data, 0, 1⟩).c.tested_states = ["\"a.txt\":[0]".data] := by
  exact ⟨by decide, by decide, by decide, by decide⟩

/-- C8 counterexample: `FileState::new` on `"X\r\nY\n"` stores `["X", "Y"]` —
the CR of the CRLF is stripped and the trailing empty segment after the final
newline is dropped, contradicting the claimed reference semantics which would
store `["X\r", "Y", ""]`. -/
theorem C8_counterexample :
    (FileState.new "a.txt".data "X\r\nY\n".data).original_lines
        = ["X".data, "Y".data]
    ∧ (FileState.new "a.txt".data "X\r\nY\n".data).original_lines
        ≠ ["X\r".data, "Y".data, ("".data : Str)] := by
  exact ⟨by decide, by decide⟩

/-- One-line file `a` for the seed-determinism counterexample. -/
def fileA : FileState := ⟨"a".data, ["X".data], []⟩

/-- One-line file `b` for the seed-determinism counterexample. -/
def fileB : FileState := ⟨"b".data, ["Y".data], []⟩

/-- Two-line file `a` for the random-ranges counterexample. -/
def fileA2 : FileState := ⟨"a".data, ["X".data, "x".data], []⟩

/-- Two-line file `b` for the random-ranges counterexample. -/
def fileB2 : FileState := ⟨"b".data, ["Y".data, "y".data], []⟩

/-- C9 counterexample: both random strategies pick the file by indexing the
map's iteration order, so the same logical two-file set presented in the two
possible orders yields different range sequences for the same seed and
attempt count. -/
theorem C9_counterexample :
    ([fileA, fileB].Perm [fileB, fileA]
      ∧ randomLinesRanges 1 12345 [fileA, fileB]
          ≠ randomLinesRanges 1 12345 [fileB, fileA])
    ∧ ([fileA2, fileB2].Perm [fileB2, fileA2]
      ∧ randomRangesRanges 1 54321 [fileA2, fileB2]
          ≠ randomRangesRanges 1 54321 [fileB2, fileA2]) := by
  exact ⟨⟨by decide, by decide⟩, ⟨by decide, by decide⟩⟩

/-- C10: a file-state with exactly one non-blank line gets zero ranges from
bisection (its starting width is `⌊1/2⌋ = 0`) and exactly one range from the
sliding-window strategy with window size 1, covering that line. -/
theorem C10_single_line_boundary (fs : FileState)
    (h : fs.non_blank_line_indices.length = 1) :
    perFileBisect fs = []
    ∧ perFileSliding 1 fs
        = [⟨fs.path, fs.non_blank_line_indices.getD 0 0,
            fs.non_blank_line_indices.getD 0 0 + 1⟩]
    ∧ fs.non_blank_line_indices = [fs.non_blank_line_indices.getD 0 0] := by
  rcases hnb : fs.non_blank_line_indices with _ | ⟨i, rest⟩
  · simp [hnb] at h
  · rcases rest with _ | ⟨j, rest2⟩
    · refine ⟨?_, ?_, by simp⟩
      · simp [perFileBisect, hnb, bisectLoop]
      · simp [perFileSliding, hnb, List.range_succ]
    · simp [hnb] at h

/-- C10 witness: the single-line file `a.txt` = `["X"]`. -/
theorem C10_single_line_boundary_witness :
    perFileBisect ⟨"a.txt".data, ["X".data], []⟩ = []
    ∧ perFileSliding 1 ⟨"a.txt".data, ["X".data], []⟩
        = [⟨"a.txt".data,
            (FileState.non_blank_line_indices ⟨"a.txt".data, ["X".data], []⟩).getD 0 0,
            (FileState.non_blank_line_indices ⟨"a.txt".data, ["X".data], []⟩).getD 0 0 + 1⟩]
    ∧ FileState.non_blank_line_indices ⟨"a.txt".data, ["X".data], []⟩
        = [(FileState.non_blank_line_indices ⟨"a.txt".data, ["X".data], []⟩).getD 0 0] :=
  C10_single_line_boundary ⟨"a.txt".data, ["X".data], []⟩ (by decide)

/-! ### C6 amended: the key is canonical in the file order -/

/-- C6 amended: `get_state_key` is invariant under the iteration order of the
file map — any permutation of the file list yields the same key, because the
per-file strings are sorted before joining.  (It is not invariant under the
iteration order of each blanked set: see the counterexample.) -/
theorem C6_amended (L1 L2 : List FileState) (h : L1.Perm L2) :
    get_state_key L1 = get_state_key L2 := by
  unfold get_state_key
  congr 1
  refine List.eq_of_perm_of_sorted ?_
    (List.sorted_insertionSort _ _) (List.sorted_insertionSort _ _)
  exact (List.perm_insertionSort _ _).trans
    ((h.map fileKey).trans (List.perm_insertionSort _ _).symm)

/-- C6 witness: the two-file set presented in its two iteration orders. -/
theorem C6_amended_witness :
    get_state_key [fileA, fileB] = get_state_key [fileB, fileA] :=
  C6_amended [fileA, fileB] [fileB, fileA] (by decide)

/-! ### C7 amended: missing baseline takes the ordinary failure path -/

/-- C7 amended: when the baseline is unset (and the memo does not
short-circuit and the file is managed), `try_blank_range` raises no error:
it blanks the range, persists, invokes the oracle, marks the post-blank state
tested, treats the comparison as a mismatch, reverts, re-persists, and
returns `Ok(false)`. -/
theorem C7_amended (oracle : Oracle) (c : Chomper) (r : ChompRange)
    (hb : c.baseline_result = none)
    (h1 : get_state_key c.files ∉ c.tested_states)
    (h2 : c.files.any (fun fs => decide (fs.path = r.file)) = true) :
    try_blank_range oracle c r
      = ⟨.ok false,
          ⟨revertedFiles c r, none,
            insertKey c.tested_states (get_state_key (blankedFiles c r)),
            writeAllDisk (revertedFiles c r) (attemptDisk c r)⟩,
          [get_state_key (blankedFiles c r)], 2⟩ := by
  have h3 : attemptMatches oracle c r = false := by
    simp [attemptMatches, hb]
  simp [try_blank_range, h1, h2, h3, hb]

/-- C7 witness: the missing-baseline chomper goes through the failure path. -/
theorem C7_amended_witness :
    try_blank_range constOracle noBaselineChomper ⟨"a.txt".data, 0, 1⟩
      = ⟨.ok false,
          ⟨revertedFiles noBaselineChomper ⟨"a.txt".data, 0, 1⟩, none,
            insertKey noBaselineChomper.tested_states
              (get_state_key (blankedFiles noBaselineChomper ⟨"a.txt".data, 0, 1⟩)),
            writeAllDisk (revertedFiles noBaselineChomper ⟨"a.txt".data, 0, 1⟩)
              (attemptDisk noBaselineChomper ⟨"a.txt".data, 0, 1⟩)⟩,
          [get_state_key (blankedFiles noBaselineChomper ⟨"a.txt".data, 0, 1⟩)], 2⟩ :=
  C7_amended constOracle noBaselineChomper ⟨"a.txt".data, 0, 1⟩
    (by decide) (by decide) (by decide)

/-! ### C8 amended: the actual line-splitting semantics -/

lemma splitNl_of_not_mem {a : Str} (h : '\n' ∉ a) : splitNl a = [a] := by
  induction a with
  | nil => rfl
  | cons x xs ih =>
    have hx : ¬ x = '\n' := fun e => h (by simp [e])
    have hxs : '\n' ∉ xs := fun m => h (List.mem_cons_of_mem _ m)
    simp [splitNl, hx, ih hxs]

lemma splitNl_append {a rest : Str} (h : '\n' ∉ a) :
    splitNl (a ++ '\n' :: rest) = a :: splitNl rest := by
  induction a with
  | nil => simp [splitNl]
  | cons x xs ih =>
    have hx : ¬ x = '\n' := fun e => h (by simp [e])
    have hxs : '\n' ∉ xs := fun m => h (List.mem_cons_of_mem _ m)
    simp [splitNl, hx, ih hxs]

lemma stripCr_of_not_mem {a : Str} (h : '\r' ∉ a) : stripCr a = a := by
  unfold stripCr
  split
  · next hl => exact absurd (List.mem_of_mem_getLast? hl) h
  · rfl

lemma stripCr_concat_cr (a : Str) : stripCr (a ++ ['\r']) = a := by
  unfold stripCr
  rw [List.getLast?_concat]
  simp

/-- C8 amended: the actual splitting of `FileState::new` (Rust `str::lines`):
for separator-free `a` and nonempty separator-free `b`, the separators `\n`
and `\r\n` both split `a` from `b` with the whole separator (including the
CR) discarded, and a final `\n` produces no trailing empty line. -/
theorem C8_amended (p a b : Str) (ha : '\n' ∉ a) (ha2 : '\r' ∉ a)
    (hb : '\n' ∉ b) (hb2 : b ≠ []) :
    (FileState.new p (a ++ '\n' :: b)).original_lines = [a, b]
    ∧ (FileState.new p (a ++ '\r' :: '\n' :: b)).original_lines = [a, b]
    ∧ (FileState.new p (a ++ ['\n'])).original_lines = [a] := by
  obtain ⟨y, ys, rfl⟩ : ∃ y ys, b = y :: ys := by
    cases b with
    | nil => exact absurd rfl hb2
    | cons y ys => exact ⟨y, ys, rfl⟩
  refine ⟨?_, ?_, ?_⟩
  · have h1 : splitNl (a ++ '\n' :: (y :: ys)) = [a, y :: ys] := by
      rw [splitNl_append ha, splitNl_of_not_mem hb]
    simp [FileState.new, rustLines, h1, stripCr_of_not_mem ha2]
  · have hcr : '\n' ∉ a ++ ['\r'] := by
      intro m
      rcases List.mem_append.mp m with m | m
      · exact ha m
      · simp at m
    have h2 : splitNl (a ++ '\r' :: '\n' :: (y :: ys)) = [a ++ ['\r'], y :: ys] := by
      rw [show a ++ '\r' :: '\n' :: (y :: ys) = (a ++ ['\r']) ++ '\n' :: (y :: ys) by
        simp]
      rw [splitNl_append hcr, splitNl_of_not_mem hb]
    simp [FileState.new, rustLines, h2, stripCr_concat_cr]
  · have h3 : splitNl (a ++ ['\n']) = [a, []] := by
      rw [show a ++ ['\n'] = a ++ '\n' :: [] from rfl, splitNl_append ha]
      rfl
    simp [FileState.new, rustLines, h3, stripCr_of_not_mem ha2]

/-! ### C4: revert behaviour of a failed attempt -/

lemma blank_lines_path (fs : FileState) (ls : List Nat) :
    (fs.blank_lines ls).path = fs.path := rfl

lemma unblank_lines_path (fs : FileState) (ls : List Nat) :
    (fs.unblank_lines ls).path = fs.path := rfl

lemma diskGet_upsert (d : Disk) (p v q : Str) :
    diskGet (upsert d p v) q = if q = p then some v else diskGet d q := by
  unfold upsert diskGet
  by_cases hq : q = p
  · subst hq
    rw [List.find?_cons_of_pos _ (by simp)]
    simp
  · have hpq : ¬ p = q := fun e => hq e.symm
    rw [List.find?_cons_of_neg _ (by simp [hpq])]
    rw [if_neg hq]
    congr 1
    induction d with
    | nil => rfl
    | cons e d ih =>
      by_cases he : e.1 = p
      · have hcond : ¬ (decide (e.1 ≠ p) = true) := by simp [he]
        have heq : ¬ e.1 = q := by rw [he]; exact hpq
        rw [List.filter_cons, if_neg hcond, ih,
          List.find?_cons_of_neg _ (by simp [heq])]
      · have hcond : decide (e.1 ≠ p) = true := by simp [he]
        rw [List.filter_cons, if_pos hcond]
        by_cases heq : e.1 = q
        · rw [List.find?_cons_of_pos _ (by simp [heq]),
            List.find?_cons_of_pos _ (by simp [heq])]
        · rw [List.find?_cons_of_neg _ (by simp [heq]),
            List.find?_cons_of_neg _ (by simp [heq]), ih]

/-- With unique paths, looking a path up after `write_all` yields the current
rendering of the managed file, and leaves other paths untouched. -/
lemma diskGet_writeAllDisk (L : List FileState) (d : Disk) (q : Str)
    (hnd : (L.map FileState.path).Nodup) :
    diskGet (writeAllDisk L d) q
      = match L.find? (fun fs => decide (fs.path = q)) with
        | some fs => some fs.current_content
        | none => diskGet d q := by
  induction L generalizing d with
  | nil => rfl
  | cons fs L ih =>
    have hprev : fs.path ∉ L.map FileState.path ∧ (L.map FileState.path).Nodup := by
      rw [List.map_cons] at hnd
      exact List.nodup_cons.mp hnd
    have hstep : writeAllDisk (fs :: L) d
        = writeAllDisk L (upsert d fs.path fs.current_content) := rfl
    rw [hstep, ih _ hprev.2]
    by_cases hq : fs.path = q
    · have hnone : L.find? (fun g => decide (g.path = q)) = none := by
        rw [List.find?_eq_none]
        intro g hg
        simp only [decide_eq_true_eq]
        intro e
        refine hprev.1 (List.mem_map.mpr ⟨g, hg, ?_⟩)
        rw [e]
        exact hq.symm
      rw [List.find?_cons_of_pos _ (by simp [hq]), hnone]
      simp [diskGet_upsert, hq]
    · rw [List.find?_cons_of_neg _ (by simp [hq])]
      cases hfind : L.find? (fun g => decide (g.path = q)) with
      | some g => simp [hfind]
      | none =>
        simp only [hfind]
        rw [diskGet_upsert]
        rw [if_neg (fun e => hq e.symm)]

/-- Decomposition of the blanking fold: the blanked list only grows by a
suffix of newly inserted indices, all of which come from the input list. -/
lemma blankFold_exists_extra (len : Nat) :
    ∀ (ls b : List Nat),
      ∃ extra,
        ls.foldl (fun acc l => if l < len then insertSet acc l else acc) b
            = b ++ extra
          ∧ ∀ x ∈ extra, x ∈ ls
  | [], b => ⟨[], by simp, by simp⟩
  | l :: ls, b => by
    by_cases hl : l < len
    · by_cases hm : l ∈ b
      · obtain ⟨extra, he, hsub⟩ := blankFold_exists_extra len ls b
        refine ⟨extra, ?_, fun x hx => List.mem_cons_of_mem _ (hsub x hx)⟩
        rw [List.foldl_cons, if_pos hl]
        rw [show insertSet b l = b from if_pos hm]
        exact he
      · obtain ⟨extra, he, hsub⟩ := blankFold_exists_extra len ls (b ++ [l])
        refine ⟨l :: extra, ?_, ?_⟩
        · rw [List.foldl_cons, if_pos hl]
          rw [show insertSet b l = b ++ [l] from if_neg hm]
          rw [he, List.append_assoc]
          rfl
        · intro x hx
          rcases List.mem_cons.mp hx with rfl | hx
          · exact List.mem_cons_self _ _
          · exact List.mem_cons_of_mem _ (hsub x hx)
    · obtain ⟨extra, he, hsub⟩ := blankFold_exists_extra len ls b
      refine ⟨extra, ?_, fun x hx => List.mem_cons_of_mem _ (hsub x hx)⟩
      rw [List.foldl_cons, if_neg hl]
      exact he

/-- Blanking a range disjoint from the already-blanked indices and then
unblanking the same range restores the file state exactly. -/
lemma unblank_blank_restore (fs : FileState) (ls : List Nat)
    (hd : ∀ x ∈ fs.blanked_lines, x ∉ ls) :
    (fs.blank_lines ls).unblank_lines ls = fs := by
  obtain ⟨extra, he, hsub⟩ :=
    blankFold_exists_extra fs.original_lines.length ls fs.blanked_lines
  cases fs with
  | mk path orig b =>
    simp only [FileState.blank_lines, FileState.unblank_lines] at he ⊢
    rw [he, List.filter_append]
    rw [List.filter_eq_self.mpr (by
      intro a ha
      simpa using hd a ha)]
    rw [List.filter_eq_nil_iff.mpr (by
      intro a ha
      simpa using hsub a ha)]
    simp

/-- A failed attempt over a range disjoint from the pre-blanked indices
reverts the in-memory file set exactly. -/
lemma revertedFiles_eq (c : Chomper) (r : ChompRange)
    (hdisj : ∀ fs ∈ c.files, fs.path = r.file →
        ∀ i ∈ fs.blanked_lines, i ∉ linesToBlank r) :
    revertedFiles c r = c.files := by
  unfold revertedFiles blankedFiles mapFile
  rw [List.map_map]
  have hid : ∀ fs ∈ c.files,
      ((fun fs => if fs.path = r.file then fs.unblank_lines (linesToBlank r) else fs)
        ∘ (fun fs => if fs.path = r.file then fs.blank_lines (linesToBlank r) else fs)) fs
      = fs := by
    intro fs hfs
    by_cases hp : fs.path = r.file
    · simp only [Function.comp, hp, if_true, blank_lines_path, if_pos hp]
      exact unblank_blank_restore fs _ (hdisj fs hfs hp)
    · simp [Function.comp, hp]
  rw [List.map_congr_left hid, List.map_id']

lemma blankedFiles_paths (c : Chomper) (r : ChompRange) :
    (blankedFiles c r).map FileState.path = c.files.map FileState.path := by
  unfold blankedFiles mapFile
  rw [List.map_map]
  apply List.map_congr_left
  intro fs _
  by_cases hp : fs.path = r.file <;> simp [Function.comp, hp, blank_lines_path]

/-- C4 counterexample: a failed oracle-running attempt whose range `[0,2)`
overlaps the already-blanked index 0 does not restore the state at the
instant of the call: the revert also unblanks line 0, in memory and on disk
(the file goes from `"\nY"` back to `"X\nY"`). -/
theorem C4_counterexample :
    (try_blank_range failOracle
        ⟨[⟨"a.txt".data, ["X".data, "Y".data], [0]⟩], some okResult, [],
          [("a.txt".data, "\nY".data)]⟩ ⟨"a.txt".data, 0, 2⟩).res
      = CRes.ok false
    ∧ (try_blank_range failOracle
        ⟨[⟨"a.txt".data, ["X".data, "Y".data], [0]⟩], some okResult, [],
          [("a.txt".data, "\nY".data)]⟩ ⟨"a.txt".data, 0, 2⟩).oracleKeys.length = 1
    ∧ (try_blank_range failOracle
        ⟨[⟨"a.txt".data, ["X".data, "Y".data], [0]⟩], some okResult, [],
          [("a.txt".data, "\nY".data)]⟩ ⟨"a.txt".data, 0, 2⟩).c.files
        ≠ [⟨"a.txt".data, ["X".data, "Y".data], [0]⟩]
    ∧ diskGet (try_blank_range failOracle
        ⟨[⟨"a.txt".data, ["X".data, "Y".data], [0]⟩], some okResult, [],
          [("a.txt".data, "\nY".data)]⟩ ⟨"a.txt".data, 0, 2⟩).c.disk "a.txt".data
        ≠ some "\nY".data := by
  exact ⟨by decide, by decide, by decide, by decide⟩

/-- C4 amended: for a failed oracle-running attempt whose range is disjoint
from the already-blanked indices of the target file (the only case reachable
when the state is mutated only through `try_blank_range`), the engine
unblanks exactly the attempted range and re-persists, restoring the
in-memory blanked sets and the on-disk contents of every managed file to
their values at the instant of the call. -/
theorem C4_amended (oracle : Oracle) (c : Chomper) (r : ChompRange)
    (base : RunResult)
    (hb : c.baseline_result = some base)
    (h1 : get_state_key c.files ∉ c.tested_states)
    (h2 : c.files.any (fun fs => decide (fs.path = r.file)) = true)
    (hfail : is_identical (oracle (attemptDisk c r)) base = false)
    (hdisj : ∀ fs ∈ c.files, fs.path = r.file →
        ∀ i ∈ fs.blanked_lines, i ∉ linesToBlank r)
    (hnd : (c.files.map FileState.path).Nodup)
    (hcons : ∀ fs ∈ c.files, diskGet c.disk fs.path = some fs.current_content) :
    (try_blank_range oracle c r).res = CRes.ok false
    ∧ (try_blank_range oracle c r).oracleKeys.length = 1
    ∧ (try_blank_range oracle c r).c.files = c.files
    ∧ ∀ q, diskGet (try_blank_range oracle c r).c.disk q = diskGet c.disk q := by
  have h3 : attemptMatches oracle c r = false := by
    simp [attemptMatches, hb, hfail]
  have hrev : revertedFiles c r = c.files := revertedFiles_eq c r hdisj
  have htb : try_blank_range oracle c r
      = ⟨.ok false,
          ⟨revertedFiles c r, c.baseline_result,
            insertKey c.tested_states (get_state_key (blankedFiles c r)),
            writeAllDisk (revertedFiles c r) (attemptDisk c r)⟩,
          [get_state_key (blankedFiles c r)], 2⟩ := by
    simp [try_blank_range, h1, h2, h3]
  rw [htb]
  refine ⟨rfl, rfl, hrev, ?_⟩
  intro q
  show diskGet (writeAllDisk (revertedFiles c r) (attemptDisk c r)) q
      = diskGet c.disk q
  rw [hrev]
  have hnd2 : ((blankedFiles c r).map FileState.path).Nodup := by
    rw [blankedFiles_paths]
    exact hnd
  rw [show attemptDisk c r = writeAllDisk (blankedFiles c r) c.disk from rfl]
  rw [diskGet_writeAllDisk _ _ _ hnd]
  cases hfind : c.files.find? (fun g => decide (g.path = q)) with
  | some g =>
    have hg : g ∈ c.files := List.mem_of_find?_eq_some hfind
    have hq : g.path = q := by simpa using List.find?_some hfind
    simp only
    rw [← hq]
    exact (hcons g hg).symm
  | none =>
    simp only
    rw [diskGet_writeAllDisk _ _ _ hnd2]
    have hfind2 : (blankedFiles c r).find? (fun g => decide (g.path = q)) = none := by
      rw [List.find?_eq_none] at hfind ⊢
      intro g hg
      simp only [decide_eq_true_eq]
      intro e
      have : g.path ∈ (blankedFiles c r).map FileState.path :=
        List.mem_map.mpr ⟨g, hg, rfl⟩
      rw [blankedFiles_paths] at this
      obtain ⟨g0, hg0, he0⟩ := List.mem_map.mp this
      exact hfind g0 hg0 (by simp [he0, e])
    rw [hfind2]

/-- C4 witness: a pristine two-line file under a mismatching oracle: the
attempt `[0,1)` fails and everything is restored. -/
theorem C4_amended_witness :
    (try_blank_range failOracle
        ⟨[⟨"a.txt".data, ["X".data, "Y".data], []⟩], some okResult, [],
          [("a.txt".data, "X\nY".data)]⟩ ⟨"a.txt".data, 0, 1⟩).res = CRes.ok false
    ∧ (try_blank_range failOracle
        ⟨[⟨"a.txt".data, ["X".data, "Y".data], []⟩], some okResult, [],
          [("a.txt".data, "X\nY".data)]⟩ ⟨"a.txt".data, 0, 1⟩).oracleKeys.length = 1
    ∧ (try_blank_range failOracle
        ⟨[⟨"a.txt".data, ["X".data, "Y".data], []⟩], some okResult, [],
          [("a.txt".data, "X\nY".data)]⟩ ⟨"a.txt".data, 0, 1⟩).c.files
        = [⟨"a.txt".data, ["X".data, "Y".data], []⟩]
    ∧ diskGet (try_blank_range failOracle
        ⟨[⟨"a.txt".data, ["X".data, "Y".data], []⟩], some okResult, [],
          [("a.txt".data, "X\nY".data)]⟩ ⟨"a.txt".data, 0, 1⟩).c.disk "a.txt".data
        = diskGet [("a.txt".data, "X\nY".data)] "a.txt".data := by
  have h := C4_amended failOracle
    ⟨[⟨"a.txt".data, ["X".data, "Y".data], []⟩], some okResult, [],
      [("a.txt".data, "X\nY".data)]⟩ ⟨"a.txt".data, 0, 1⟩ okResult
    (by decide) (by decide) (by decide) (by decide)
    (by decide) (by decide) (by decide)
  exact ⟨h.1, h.2.1, h.2.2.1, h.2.2.2 "a.txt".data⟩

/-! ### C5 amended: strict decrease and meta-driver termination -/

lemma mem_insertSet_self (s : List Nat) (x : Nat) : x ∈ insertSet s x := by
  unfold insertSet
  split
  · assumption
  · simp

lemma mem_insertSet_of_mem {s : List Nat} {y : Nat} (x : Nat) (h : y ∈ s) :
    y ∈ insertSet s x := by
  unfold insertSet
  split
  · exact h
  · simp [h]

lemma mem_blankFold_of_mem (len : Nat) :
    ∀ (ls b : List Nat) {x : Nat}, x ∈ b →
      x ∈ ls.foldl (fun acc l => if l < len then insertSet acc l else acc) b
  | [], _, _, h => h
  | l :: ls, b, x, h => by
    rw [List.foldl_cons]
    by_cases hl : l < len
    · rw [if_pos hl]
      exact mem_blankFold_of_mem len ls _ (mem_insertSet_of_mem _ h)
    · rw [if_neg hl]
      exact mem_blankFold_of_mem len ls _ h

lemma mem_blankFold (len : Nat) :
    ∀ (ls b : List Nat) {i : Nat}, i ∈ ls → i < len →
      i ∈ ls.foldl (fun acc l => if l < len then insertSet acc l else acc) b
  | [], _, _, hi, _ => absurd hi (List.not_mem_nil _)
  | l :: ls, b, i, hi, hlen => by
    rw [List.foldl_cons]
    rcases List.mem_cons.mp hi with rfl | hi
    · rw [if_pos hlen]
      exact mem_blankFold_of_mem len ls _ (mem_insertSet_self b i)
    · by_cases hl : l < len
      · rw [if_pos hl]
        exact mem_blankFold len ls _ hi hlen
      · rw [if_neg hl]
        exact mem_blankFold len ls _ hi hlen

lemma blankFold_length_le (len : Nat) (ls b : List Nat) :
    b.length
      ≤ (ls.foldl (fun acc l => if l < len then insertSet acc l else acc) b).length := by
  obtain ⟨extra, he, _⟩ := blankFold_exists_extra len ls b
  rw [he, List.length_append]
  omega

lemma blankFold_length_lt (len : Nat) (ls b : List Nat) {i : Nat}
    (hi : i ∈ ls) (hlen : i < len) (hnb : i ∉ b) :
    b.length
      < (ls.foldl (fun acc l => if l < len then insertSet acc l else acc) b).length := by
  obtain ⟨extra, he, _⟩ := blankFold_exists_extra len ls b
  have hmem : i ∈ ls.foldl (fun acc l => if l < len then insertSet acc l else acc) b :=
    mem_blankFold len ls b hi hlen
  rw [he] at hmem ⊢
  rcases List.mem_append.mp hmem with hmem | hmem
  · exact absurd hmem hnb
  · rw [List.length_append]
    cases extra with
    | nil => exact absurd hmem (List.not_mem_nil _)
    | cons x xs => simp

lemma non_blank_blank_le (fs : FileState) (ls : List Nat) :
    (fs.blank_lines ls).non_blank_lines ≤ fs.non_blank_lines := by
  unfold FileState.non_blank_lines FileState.blank_lines
  have := blankFold_length_le fs.original_lines.length ls fs.blanked_lines
  simp only
  omega

lemma non_blank_blank_lt (fs : FileState) (ls : List Nat) {i : Nat}
    (hi : i ∈ ls) (hlen : i < fs.original_lines.length)
    (hnb : i ∉ fs.blanked_lines)
    (hnd : fs.blanked_lines.Nodup)
    (hbd : ∀ j ∈ fs.blanked_lines, j < fs.original_lines.length) :
    (fs.blank_lines ls).non_blank_lines < fs.non_blank_lines := by
  have hsub : fs.blanked_lines.toFinset ⊆ Finset.range fs.original_lines.length := by
    intro j hj
    rw [List.mem_toFinset] at hj
    rw [Finset.mem_range]
    exact hbd j hj
  have hcard : fs.blanked_lines.toFinset.card = fs.blanked_lines.length :=
    List.toFinset_card_of_nodup hnd
  have hblt : fs.blanked_lines.length < fs.original_lines.length := by
    by_contra hge
    push_neg at hge
    have heq : fs.blanked_lines.toFinset = Finset.range fs.original_lines.length :=
      Finset.eq_of_subset_of_card_le hsub (by rw [hcard, Finset.card_range]; exact hge)
    have : i ∈ fs.blanked_lines := by
      rw [← List.mem_toFinset, heq, Finset.mem_range]
      exact hlen
    exact hnb this
  have hstep := blankFold_length_lt fs.original_lines.length ls fs.blanked_lines hi hlen hnb
  unfold FileState.non_blank_lines FileState.blank_lines
  simp only
  omega

lemma sum_map_le {α : Type _} (f g : α → Nat) :
    ∀ (L : List α), (∀ x ∈ L, f x ≤ g x) → (L.map f).sum ≤ (L.map g).sum
  | [], _ => le_refl _
  | x :: L, hle => by
    simp only [List.map_cons, List.sum_cons]
    have h1 := hle x (List.mem_cons_self _ _)
    have h2 := sum_map_le f g L (fun y hy => hle y (List.mem_cons_of_mem _ hy))
    omega

lemma sum_map_lt {α : Type _} (f g : α → Nat) :
    ∀ (L : List α) (a : α), a ∈ L → (∀ x ∈ L, f x ≤ g x) → f a < g a →
      (L.map f).sum < (L.map g).sum
  | [], a, ha, _, _ => absurd ha (List.not_mem_nil _)
  | x :: L, a, ha, hle, hlt => by
    simp only [List.map_cons, List.sum_cons]
    rcases List.mem_cons.mp ha with rfl | ha
    · have h2 := sum_map_le f g L (fun y hy => hle y (List.mem_cons_of_mem _ hy))
      omega
    · have h1 := hle x (List.mem_cons_self _ _)
      have h2 := sum_map_lt f g L a ha
        (fun y hy => hle y (List.mem_cons_of_mem _ hy)) hlt
      omega

/-- A successful attempt whose range contains an in-bounds non-blanked line
of the target file strictly decreases the total non-blank count. -/
lemma success_strict_decrease (oracle : Oracle) (c : Chomper) (r : ChompRange)
    (fs : FileState) (i : Nat)
    (hmem : fs ∈ c.files) (hpath : fs.path = r.file)
    (hnd : fs.blanked_lines.Nodup)
    (hbd : ∀ j ∈ fs.blanked_lines, j < fs.original_lines.length)
    (hs : r.start_line ≤ i) (he : i < r.end_line)
    (hlen : i < fs.original_lines.length)
    (hnb : i ∉ fs.blanked_lines)
    (hres : (try_blank_range oracle c r).res = CRes.ok true) :
    totalNonBlank (try_blank_range oracle c r).c.files < totalNonBlank c.files := by
  by_cases h1 : get_state_key c.files ∈ c.tested_states
  · simp [try_blank_range, h1] at hres
  by_cases h2 : (c.files.any (fun g => decide (g.path = r.file))) = true
  swap
  · simp [try_blank_range, h1, h2] at hres
  by_cases h3 : attemptMatches oracle c r = true
  swap
  · simp [try_blank_range, h1, h2, h3] at hres
  have hfiles : (try_blank_range oracle c r).c.files = blankedFiles c r := by
    simp [try_blank_range, h1, h2, h3]
  rw [hfiles]
  unfold blankedFiles mapFile totalNonBlank
  rw [List.map_map]
  have hils : i ∈ linesToBlank r := by
    unfold linesToBlank
    rw [List.mem_range']
    exact ⟨i - r.start_line, by omega, by omega⟩
  apply sum_map_lt _ _ c.files fs hmem
  · intro x _
    show FileState.non_blank_lines
        (if x.path = r.file then x.blank_lines (linesToBlank r) else x)
      ≤ x.non_blank_lines
    by_cases hp : x.path = r.file
    · rw [if_pos hp]
      exact non_blank_blank_le x _
    · rw [if_neg hp]
  · show FileState.non_blank_lines
        (if fs.path = r.file then fs.blank_lines (linesToBlank r) else fs)
      < fs.non_blank_lines
    rw [if_pos hpath]
    exact non_blank_blank_lt fs _ hils hlen hnb hnd hbd

/-- A fully blanked well-formed file has no non-blank indices. -/
lemma nb_nil_of_count_zero (fs : FileState) (hnd : fs.blanked_lines.Nodup)
    (hbd : ∀ i ∈ fs.blanked_lines, i < fs.original_lines.length)
    (h0 : fs.non_blank_lines = 0) :
    fs.non_blank_line_indices = [] := by
  unfold FileState.non_blank_lines at h0
  have hble : fs.original_lines.length ≤ fs.blanked_lines.length := by omega
  have hsub : fs.blanked_lines.toFinset ⊆ Finset.range fs.original_lines.length := by
    intro j hj
    rw [List.mem_toFinset] at hj
    rw [Finset.mem_range]
    exact hbd j hj
  have hcard : fs.blanked_lines.toFinset.card = fs.blanked_lines.length :=
    List.toFinset_card_of_nodup hnd
  have heq : fs.blanked_lines.toFinset = Finset.range fs.original_lines.length :=
    Finset.eq_of_subset_of_card_le hsub
      (by rw [hcard, Finset.card_range]; exact hble)
  unfold FileState.non_blank_line_indices
  rw [List.filter_eq_nil_iff]
  intro i hi
  rw [List.mem_range] at hi
  have : i ∈ fs.blanked_lines := by
    rw [← List.mem_toFinset, heq, Finset.mem_range]
    exact hi
  simp [this]

lemma foldl_append_nil {α β : Type _} (k : α → List β) :
    ∀ (L : List α) (acc : List β), (∀ x ∈ L, k x = []) →
      L.foldl (fun a x => a ++ k x) acc = acc
  | [], _, _ => rfl
  | x :: L, acc, h => by
    rw [List.foldl_cons, h x (List.mem_cons_self _ _), List.append_nil]
    exact foldl_append_nil k L acc (fun y hy => h y (List.mem_cons_of_mem _ hy))

lemma perFileBisect_nil {fs : FileState} (h : fs.non_blank_line_indices = []) :
    perFileBisect fs = [] := by
  simp [perFileBisect, h]

lemma perFileSliding_nil {w : Nat} {fs : FileState}
    (h : fs.non_blank_line_indices = []) :
    perFileSliding w fs = [] := by
  simp [perFileSliding, h]

lemma randomRangesLoop_nil {L : List FileState}
    (h : ∀ fs ∈ L, fs.non_blank_line_indices = []) :
    ∀ (n rng : Nat), randomRangesLoop L n rng = []
  | 0, _ => rfl
  | n + 1, rng => by
    simp only [randomRangesLoop]
    cases hg : L.get? ((lcgNext rng).2 % L.length) with
    | none =>
      simp only [hg]
      exact randomRangesLoop_nil h n _
    | some fs =>
      have hnb := h fs (List.get?_mem hg)
      simp only [hg, hnb]
      rw [if_pos (by simp)]
      exact randomRangesLoop_nil h n _

/-- No strategy emits any range over a file set with no non-blank lines. -/
lemma generateRanges_nil {files : List FileState}
    (hnb : ∀ fs ∈ files, fs.non_blank_line_indices = [])
    (h0 : totalNonBlank files = 0) :
    ∀ s : Strategy, generateRanges s files = []
  | .bisection =>
    foldl_append_nil _ files [] (fun fs hfs => perFileBisect_nil (hnb fs hfs))
  | .random_lines _ _ => by
    unfold generateRanges randomLinesRanges
    simp [h0]
  | .random_ranges _ _ => by
    simp only [generateRanges, randomRangesRanges]
    by_cases hemp : files.isEmpty = true
    · rw [if_pos hemp]
    · rw [if_neg hemp]
      exact randomRangesLoop_nil hnb _ _
  | .sliding_window _ =>
    foldl_append_nil _ files [] (fun fs hfs => perFileSliding_nil (hnb fs hfs))

/-- Once the current state's key is memoized, every round leaves the engine
untouched and makes no progress. -/
lemma runRound_of_locked {oracle : Oracle} {c : Chomper}
    (h : get_state_key c.files ∈ c.tested_states) :
    ∀ ss : List Strategy, runRound oracle c ss = (c, 0)
  | [] => rfl
  | s :: ss => by
    simp only [runRound, execute_strategy]
    rw [execRanges_of_tested h, runRound_of_locked h ss]
    rfl

/-- A round that emits no range makes no progress and leaves the engine
untouched. -/
lemma runRound_of_nil {oracle : Oracle} {c : Chomper}
    (hgen : ∀ s : Strategy, generateRanges s c.files = []) :
    ∀ ss : List Strategy, runRound oracle c ss = (c, 0)
  | [] => rfl
  | s :: ss => by
    simp only [runRound, execute_strategy]
    rw [hgen s]
    show ((runRound oracle (execRanges oracle c []).c ss).1,
      (execRanges oracle c []).successes + (runRound oracle (execRanges oracle c []).c ss).2)
      = (c, 0)
    rw [show execRanges oracle c [] = ⟨c, 0, [], 0⟩ from rfl]
    rw [runRound_of_nil hgen ss]
    rfl

/-- If a run over a range list made any success, the final state is locked. -/
lemma execRanges_locked_final {oracle : Oracle} :
    ∀ (rs : List ChompRange) (c : Chomper),
      (execRanges oracle c rs).successes ≠ 0 →
      get_state_key (execRanges oracle c rs).c.files
        ∈ (execRanges oracle c rs).c.tested_states
  | [], _, h => absurd rfl h
  | r :: rs, c, h => by
    simp only [execRanges] at h ⊢
    cases hres : (try_blank_range oracle c r).res with
    | ok b =>
      cases b with
      | true =>
        have hlock := locked_of_success hres
        rw [execRanges_of_tested hlock rs]
        exact hlock
      | false =>
        simp only [hres] at h
        exact execRanges_locked_final rs _ (by simpa using h)
    | err m =>
      simp only [hres] at h
      exact execRanges_locked_final rs _ (by simpa using h)

/-- If a round made any success, the state after the round is locked. -/
lemma runRound_locked_final {oracle : Oracle} :
    ∀ (ss : List Strategy) (c : Chomper),
      (runRound oracle c ss).2 ≠ 0 →
      get_state_key (runRound oracle c ss).1.files
        ∈ (runRound oracle c ss).1.tested_states
  | [], _, h => absurd rfl h
  | s :: ss, c, h => by
    simp only [runRound] at h ⊢
    by_cases hs : (execute_strategy oracle c s).successes = 0
    · rw [hs] at h
      exact runRound_locked_final ss _ (by simpa using h)
    · have hlock : get_state_key (execute_strategy oracle c s).c.files
          ∈ (execute_strategy oracle c s).c.tested_states :=
        execRanges_locked_final _ _ hs
      rw [runRound_of_locked hlock ss]
      exact hlock

/-- The meta-driver with fuel `initial + 1` always exits naturally, within
at most `initial + 1` rounds (in fact within 2). -/
lemma metaDrive_bound (oracle : Oracle) (strats : List Strategy) (c : Chomper)
    (hwf : ∀ fs ∈ c.files, fs.blanked_lines.Nodup
        ∧ ∀ i ∈ fs.blanked_lines, i < fs.original_lines.length) :
    ∃ st, metaDrive oracle strats (totalNonBlank c.files + 1) c = some st
      ∧ st.2 ≤ totalNonBlank c.files + 1 := by
  by_cases h0 : totalNonBlank c.files = 0
  · have hnb : ∀ fs ∈ c.files, fs.non_blank_line_indices = [] := by
      intro fs hfs
      have hcount : fs.non_blank_lines = 0 := by
        have := List.sum_eq_zero_iff.mp (by simpa [totalNonBlank] using h0)
        exact this _ (List.mem_map.mpr ⟨fs, hfs, rfl⟩)
      exact nb_nil_of_count_zero fs (hwf fs hfs).1 (hwf fs hfs).2 hcount
    have hgen := generateRanges_nil hnb h0
    refine ⟨(c, 1), ?_, by omega⟩
    rw [h0]
    simp [metaDrive, runRound_of_nil hgen strats]
  · obtain ⟨n, hn⟩ : ∃ n, totalNonBlank c.files = n + 1 :=
      ⟨totalNonBlank c.files - 1, by omega⟩
    rw [hn]
    by_cases hs : (runRound oracle c strats).2 = 0
    · exact ⟨((runRound oracle c strats).1, 1), by simp [metaDrive, hs], by omega⟩
    · have hlock := runRound_locked_final strats c hs
      have h2 : runRound oracle (runRound oracle c strats).1 strats
          = ((runRound oracle c strats).1, 0) := runRound_of_locked hlock strats
      refine ⟨((runRound oracle c strats).1, 2), ?_, by omega⟩
      show metaDrive oracle strats (n + 1 + 1) c = _
      simp only [metaDrive]
      rw [if_neg hs]
      simp only [metaDrive, h2]
      simp

/-- C5 amended: (a) every `try_blank_range` call that returns `true` and
whose range contains at least one in-bounds non-blanked line of the target
(well-formed) file strictly decreases the total non-blank count — an
out-of-range "successful" call need not decrease it, see the counterexample —
and (b) the meta-driver round loop terminates for any finite well-formed
input within at most `initial non-blank count + 1` rounds. -/
theorem C5_amended :
    (∀ (oracle : Oracle) (c : Chomper) (r : ChompRange) (fs : FileState) (i : Nat),
        fs ∈ c.files → fs.path = r.file →
        fs.blanked_lines.Nodup →
        (∀ j ∈ fs.blanked_lines, j < fs.original_lines.length) →
        r.start_line ≤ i → i < r.end_line → i < fs.original_lines.length →
        i ∉ fs.blanked_lines →
        (try_blank_range oracle c r).res = CRes.ok true →
        totalNonBlank (try_blank_range oracle c r).c.files < totalNonBlank c.files)
    ∧ (∀ (oracle : Oracle) (strats : List Strategy) (c : Chomper),
        (∀ fs ∈ c.files, fs.blanked_lines.Nodup
            ∧ ∀ i ∈ fs.blanked_lines, i < fs.original_lines.length) →
        ∃ st, metaDrive oracle strats (totalNonBlank c.files + 1) c = some st
          ∧ st.2 ≤ totalNonBlank c.files + 1) :=
  ⟨fun oracle c r fs i hmem hpath hnd hbd hs he hlen hnb hres =>
    success_strict_decrease oracle c r fs i hmem hpath hnd hbd hs he hlen hnb hres,
   fun oracle strats c hwf => metaDrive_bound oracle strats c hwf⟩

/-- C5 witness: in Scenario A, the successful chomp of line 0 strictly
decreases the count, and the bisection-only meta-driver exits within the
stated fuel. -/
theorem C5_amended_witness :
    totalNonBlank
        (try_blank_range constOracle scenarioChomper ⟨"a.txt".data, 0, 1⟩).c.files
      < totalNonBlank scenarioChomper.files
    ∧ (metaDrive constOracle [.bisection]
        (totalNonBlank scenarioChomper.files + 1) scenarioChomper).isSome = true := by
  constructor
  · exact C5_amended.1 constOracle scenarioChomper ⟨"a.txt".data, 0, 1⟩
      scenarioFile 0 (by decide) (by decide) (by decide) (by decide)
      (by decide) (by decide) (by decide) (by decide) (by decide)
  · obtain ⟨st, h1, _⟩ := C5_amended.2 constOracle [.bisection] scenarioChomper
      (by decide)
    rw [h1]
    rfl

/-! ### C9 amended: what the random strategies are deterministic in -/

/-- Logical equivalence of two file states: same path and contents, and the
same blanked set (any iteration orders, no duplicates). -/
def FSEquiv (a b : FileState) : Prop :=
  a.path = b.path ∧ a.original_lines = b.original_lines
    ∧ a.blanked_lines.Nodup ∧ b.blanked_lines.Nodup
    ∧ ∀ i, i ∈ a.blanked_lines ↔ i ∈ b.blanked_lines

lemma FSEquiv.nb_eq {a b : FileState} (h : FSEquiv a b) :
    a.non_blank_line_indices = b.non_blank_line_indices := by
  unfold FileState.non_blank_line_indices
  rw [h.2.1]
  apply List.filter_congr
  intro i _
  simp [h.2.2.2.2 i]

lemma FSEquiv.count_eq {a b : FileState} (h : FSEquiv a b) :
    a.non_blank_lines = b.non_blank_lines := by
  unfold FileState.non_blank_lines
  rw [h.2.1]
  have hperm : a.blanked_lines.Perm b.blanked_lines :=
    (List.perm_ext_iff_of_nodup h.2.2.1 h.2.2.2.1).mpr h.2.2.2.2
  rw [hperm.length_eq]

lemma totalNonBlank_eq {L1 L2 : List FileState}
    (h : List.Forall₂ FSEquiv L1 L2) : totalNonBlank L1 = totalNonBlank L2 := by
  induction h with
  | nil => rfl
  | cons hab _ ih =>
    simp only [totalNonBlank, List.map_cons, List.sum_cons] at *
    rw [hab.count_eq, ih]

lemma forall₂_get? {R : FileState → FileState → Prop}
    {L1 L2 : List FileState} (h : List.Forall₂ R L1 L2) (n : Nat) :
    (L1.get? n = none ∧ L2.get? n = none)
    ∨ ∃ a b, L1.get? n = some a ∧ L2.get? n = some b ∧ R a b := by
  induction h generalizing n with
  | nil => left; simp
  | cons hab _ ih =>
    cases n with
    | zero => right; exact ⟨_, _, rfl, rfl, hab⟩
    | succ n => simpa using ih n

lemma randomLinesLoop_eq {L1 L2 : List FileState}
    (h : List.Forall₂ FSEquiv L1 L2) :
    ∀ (n rng : Nat) (tried : List (Str × Nat)),
      randomLinesLoop L1 n rng tried = randomLinesLoop L2 n rng tried := by
  intro n
  induction n with
  | zero => intro rng tried; rfl
  | succ n ih =>
    intro rng tried
    have hlen : L1.length = L2.length := h.length_eq
    simp only [randomLinesLoop]
    rw [hlen]
    rcases forall₂_get? h ((lcgNext rng).2 % L2.length) with ⟨h1, h2⟩
      | ⟨a, b, h1, h2, hab⟩
    · simp only [h1, h2]
      exact ih _ _
    · simp only [h1, h2]
      rw [hab.nb_eq, hab.1]
      split
      · exact ih _ _
      · split
        · exact ih _ _
        · rw [ih _ _]

lemma randomRangesLoop_eq {L1 L2 : List FileState}
    (h : List.Forall₂ FSEquiv L1 L2) :
    ∀ (n rng : Nat),
      randomRangesLoop L1 n rng = randomRangesLoop L2 n rng := by
  intro n
  induction n with
  | zero => intro rng; rfl
  | succ n ih =>
    intro rng
    have hlen : L1.length = L2.length := h.length_eq
    simp only [randomRangesLoop]
    rw [hlen]
    rcases forall₂_get? h ((lcgNext rng).2 % L2.length) with ⟨h1, h2⟩
      | ⟨a, b, h1, h2, hab⟩
    · simp only [h1, h2]
      exact ih _
    · simp only [h1, h2]
      rw [hab.nb_eq, hab.1]
      split
      · exact ih _
      · split
        · rw [ih _]
        · exact ih _

/-- C9 amended: both random strategies are functions of the seed, the attempt
cap, the file iteration order and the logical per-file state: presenting the
same paths and contents in the same order with the same blanked sets (in any
iteration order) yields identical range sequences.  Determinism over the
logical set irrespective of the map's iteration order fails — see the
counterexample. -/
theorem C9_amended (L1 L2 : List FileState) (M seed : Nat)
    (h : List.Forall₂ FSEquiv L1 L2) :
    randomLinesRanges M seed L1 = randomLinesRanges M seed L2
    ∧ randomRangesRanges M seed L1 = randomRangesRanges M seed L2 := by
  constructor
  · unfold randomLinesRanges
    rw [totalNonBlank_eq h]
    by_cases h0 : totalNonBlank L2 = 0
    · simp [h0]
    · simp only [h0, if_false]
      exact randomLinesLoop_eq h _ _ _
  · unfold randomRangesRanges
    have he : L1.isEmpty = L2.isEmpty := by
      cases h with
      | nil => rfl
      | cons _ _ => rfl
    rw [he]
    by_cases h0 : L2.isEmpty = true
    · simp [h0]
    · simp only [if_neg h0]
      exact randomRangesLoop_eq h _ _

/-- C9 witness: a single file whose blanked set `{0, 1}` is presented in its
two iteration orders produces the same sequences for both strategies. -/
theorem C9_amended_witness :
    randomLinesRanges 3 12345 [⟨"a".data, ["X".data, "Y".data, "Z".data], [0, 1]⟩]
        = randomLinesRanges 3 12345 [⟨"a".data, ["X".data, "Y".data, "Z".data], [1, 0]⟩]
    ∧ randomRangesRanges 3 12345 [⟨"a".data, ["X".data, "Y".data, "Z".data], [0, 1]⟩]
        = randomRangesRanges 3 12345 [⟨"a".data, ["X".data, "Y".data, "Z".data], [1, 0]⟩] :=
  C9_amended _ _ 3 12345 (by
    constructor
    · refine ⟨rfl, rfl, by decide, by decide, fun i => ?_⟩
      simp only [List.mem_cons, List.not_mem_nil, or_false]
      tauto
    · exact List.Forall₂.nil)

/-- C8 witness: `"X" ++ LF ++ "Y"`, `"X" ++ CRLF ++ "Y"` and `"X" ++ LF`. -/
theorem C8_amended_witness :
    (FileState.new "a.txt".data ("X".data ++ '\n' :: "Y".data)).original_lines
        = ["X".data, "Y".data]
    ∧ (FileState.new "a.txt".data
          ("X".data ++ '\r' :: '\n' :: "Y".data)).original_lines
        = ["X".data, "Y".data]
    ∧ (FileState.new "a.txt".data ("X".data ++ ['\n'])).original_lines
        = ["X".data] :=
  C8_amended "a.txt".data "X".data "Y".data
    (by decide) (by decide) (by decide) (by decide)

end Chompie
